import Mathlib

/-!
Shallow embedding of the streamingphish feature-extraction and scoring
pipeline (cli/streamingphish/streamingphish/features.py and predictor.py),
together with proofs about the behaviours the specification describes.

Strings are modelled by Lean's String (a packed list of characters);
machine floats are modelled by real numbers (for feature values) and by
rationals (for classifier scores, where decidable comparison is needed).
Character classes are modelled over the ASCII range: Char.isAlphanum
plays the role of the alphanumeric class in the regular expressions.
-/

namespace StreamingPhish

/-! ### String helpers shared by several components -/

/-- Substring containment over character lists, modelling Python's
membership test on strings (the needle occurring contiguously in the hay). -/
def listContainsSub (hay needle : List Char) : Bool :=
  if needle.isPrefixOf hay then true
  else
    match hay with
    | [] => false
    | _ :: t => listContainsSub t needle

/-- Python's substring test on two strings. -/
def containsSubstr (hay needle : String) : Bool :=
  listContainsSub hay.toList needle.toList

/-! ### DomainNormalizer: PhishFeatures._remove_common_hosts -/

/-- The hard-coded benign host labels from features.py. -/
def commonHosts : List String :=
  ["*", "www", "mail", "cpanel", "webmail", "webdisk", "autodiscover"]

/-- Model of Python's one-shot split: the characters before the first dot
and the characters after it, or none when the string has no dot. -/
def splitFirstDot : List Char → Option (List Char × List Char)
  | [] => none
  | '.' :: t => some ([], t)
  | c :: t => (splitFirstDot t).map (fun p => (c :: p.1, p.2))

/-- Embedding of PhishFeatures._remove_common_hosts: when the label before
the first dot is one of the common hosts, return the remainder after that
dot; otherwise return the input unchanged. -/
def removeCommonHosts (fqdn : String) : String :=
  match splitFirstDot fqdn.toList with
  | none => fqdn
  | some p => if commonHosts.contains (String.mk p.1) then String.mk p.2 else fqdn

/-- Whether the label before the first dot is one of the common hosts:
exactly the condition under which removeCommonHosts rewrites its input. -/
def hasCommonHead (s : String) : Bool :=
  match splitFirstDot s.toList with
  | none => false
  | some p => commonHosts.contains (String.mk p.1)

/-! ### Tokenization: re.split of a non-word-run pattern -/

/-- Word characters of the regular-expression class: alphanumerics and the
underscore (ASCII fragment). -/
def isWordChar (c : Char) : Bool := c.isAlphanum || c = '_'

/-- Splitter for a string around maximal runs of characters failing p.
When sep is true the scan is inside a separator run (acc is then empty);
otherwise acc holds the reversed current token.  Matches the semantics of
re.split on a one-or-more-non-word pattern: a leading or trailing
separator run yields an empty boundary token, and no match yields the
whole string as a single token. -/
def splitAux (p : Char → Bool) : Bool → List Char → List Char → List (List Char)
  | _, acc, [] => [acc.reverse]
  | sep, acc, c :: t =>
    if p c then
      if sep then splitAux p false [c] t else splitAux p false (c :: acc) t
    else
      if sep then splitAux p true [] t
      else acc.reverse :: splitAux p true [] t

/-- Embedding of re.split of a non-word-run pattern applied to the raw fqdn
(features.py line 150): tokens between maximal runs of non-word
characters, empty boundary tokens included. -/
def reSplitTokens (s : String) : List String :=
  (splitAux isWordChar false [] s.toList).map String.mk

/-- Modelled from the spec's words for the tokenize operation: maximal runs
of alphanumeric characters, with every empty token discarded.  Used only to
compare the specified behaviour with reSplitTokens. -/
def specTokenize (s : String) : List String :=
  ((splitAux Char.isAlphanum false [] s.toList).map String.mk).filter
    (fun t => !(t = ""))

/-! ### Levenshtein distance (the external distance function used by
_fe_check_phishing_similarity_words; standard textbook recursion) -/

/-- Edit distance between two character lists: minimum number of
single-character insertions, deletions and substitutions. -/
def levDist : List Char → List Char → Nat
  | [], ys => ys.length
  | x :: xs, [] => (x :: xs).length
  | x :: xs, y :: ys =>
    if x = y then levDist xs ys
    else 1 + min (levDist xs ys) (min (levDist (x :: xs) ys) (levDist xs (y :: ys)))
termination_by xs ys => xs.length + ys.length

/-! ### Domain entropy: PhishFeatures._fe_compute_domain_entropy -/

/-- Embedding of the entropy computation in features.py: the counter
iterates over the distinct characters of the domain label (modelled by
List.dedup; the iteration order is immaterial for the real-valued sum),
and each count contributes count/len * log2(count/len), negated at the
end.  math.log(x, 2) is the base-2 logarithm Real.logb 2. -/
noncomputable def entropyTerm (count len : ℕ) : ℝ :=
  ((count : ℝ) / len) * Real.logb 2 ((count : ℝ) / len)

/-- Embedding of the entropy computation proper. -/
noncomputable def domainEntropy (domain : String) : ℝ :=
  -((domain.toList.dedup.map
      (fun c => entropyTerm (domain.toList.count c) domain.toList.length)).sum)

/-- Modelled from the spec's words: the base-2 Shannon entropy of the
character-frequency distribution of the domain label,
H = -∑ p_i * log2 (p_i), the sum ranging over the distinct characters. -/
noncomputable def shannonEntropy (domain : String) : ℝ :=
  -(∑ c in domain.toList.toFinset,
      entropyTerm (domain.toList.count c) domain.toList.length)

/-! ### The Python dict, as used by compute_features

A dict is an association list with unique keys; assigning to a key that is
already present updates the value in place (keeping the key's position),
while assigning a fresh key appends it.  Merging two dicts inserts the
items of the second into the first, one by one. -/

/-- Feature dictionaries: ordered association lists from feature name to
numeric value. -/
abbrev FeatDict := List (String × ℝ)

/-- Python dict assignment d[k] = v. -/
def dictInsert (d : FeatDict) (k : String) (v : ℝ) : FeatDict :=
  if d.any (fun p => p.1 = k) then
    d.map (fun p => if p.1 = k then (k, v) else p)
  else d ++ [(k, v)]

/-- Assign a sequence of items into a dict in order: the net effect of a
Python loop of assignments, and of merging a second dict into a first. -/
def dictExtend (d : FeatDict) : List (String × ℝ) → FeatDict
  | [] => d
  | item :: rest => dictExtend (dictInsert d item.1 item.2) rest

/-- The key sequence of a dict after assigning a sequence of keys: an
existing key keeps its position, a fresh key is appended.  Mirrors
dictInsert and dictExtend on the name component alone. -/
def insertKeys : List String → List String → List String
  | ks, [] => ks
  | ks, k :: rest => insertKeys (if k ∈ ks then ks else ks ++ [k]) rest

/-! ### The extractor configuration and the per-sample view -/

/-- The word lists loaded at construction time from the data directories
(PhishFeatures.__init__).  Loaded once; the extractors only read them. -/
structure DataConfig where
  brands : List String
  keywords : List String
  fqdnKeywords : List String
  similarityWords : List String
  tlds : List String

/-- Result of the public-suffix-aware splitter (tldextract, an external
collaborator): subdomain, registrable domain label, and suffix. -/
structure DomainParts where
  subdomain : String
  domain : String
  tld : String

/-- The read-only sample view handed to every extractor, assembled by
compute_features lines 148-150: parsed parts, the fqdn with common hosts
removed, and the token list split from the raw fqdn. -/
structure Sample where
  subdomain : String
  domain : String
  tld : String
  fqdn : String
  fqdnWords : List String

/-- Sample construction in compute_features: parse the fqdn (external
splitter), normalize it, and tokenize the raw string. -/
def mkSample (parse : String → DomainParts) (fqdn : String) : Sample :=
  let parts := parse fqdn
  ⟨parts.subdomain, parts.domain, parts.tld,
   removeCommonHosts fqdn, reSplitTokens fqdn⟩

/-! ### The individual extractors (_fe_ methods of PhishFeatures)

Each extractor builds an ordered dictionary by a loop of assignments over
a configuration list; this is dictExtend of the corresponding item
sequence starting from the empty dict. -/

/-- _fe_brand_presence: for each brand, substring presence in the
subdomain and in the registrable domain label. -/
def feBrandPresence (cfg : DataConfig) (s : Sample) : FeatDict :=
  dictExtend [] (cfg.brands.flatMap (fun b =>
    [(b ++ "_brand_subdomain", if containsSubstr s.subdomain b then (1 : ℝ) else 0),
     (b ++ "_brand_domain", if containsSubstr s.domain b then (1 : ℝ) else 0)]))

/-- _fe_check_phishing_similarity_words: a word of the fqdn at edit
distance exactly 1 from a dictionary word.  The Python loop first assigns
0 to the key and then re-assigns 1 once per matching word; since all the
assignments share the key, the net dict entry is 1 exactly when some word
matches. -/
def feCheckPhishingSimilarityWords (cfg : DataConfig) (s : Sample) : FeatDict :=
  dictExtend [] (cfg.similarityWords.map (fun k =>
    (k ++ "_lev_1",
     if s.fqdnWords.any (fun w => levDist w.toList k.toList = 1) then (1 : ℝ) else 0)))

/-- _fe_compute_domain_entropy. -/
noncomputable def feComputeDomainEntropy (_cfg : DataConfig) (s : Sample) : FeatDict :=
  dictExtend [] [("entropy", domainEntropy s.domain)]

/-- _fe_extract_tld: one indicator per configured suffix. -/
def feExtractTld (cfg : DataConfig) (s : Sample) : FeatDict :=
  dictExtend [] (cfg.tlds.map (fun t =>
    ("tld_" ++ t, if t = s.tld then (1 : ℝ) else 0)))

/-- _fe_keyword_match: keyword substring presence in the normalized fqdn. -/
def feKeywordMatch (cfg : DataConfig) (s : Sample) : FeatDict :=
  dictExtend [] (cfg.keywords.map (fun k =>
    (k ++ "_kw", if containsSubstr s.fqdn k then (1 : ℝ) else 0)))

/-- _fe_keyword_match_fqdn_words: exact token match. -/
def feKeywordMatchFqdnWords (cfg : DataConfig) (s : Sample) : FeatDict :=
  dictExtend [] (cfg.fqdnKeywords.map (fun k =>
    (k ++ "_kw_fqdn_words", if s.fqdnWords.contains k then (1 : ℝ) else 0)))

/-- _fe_number_of_dashes: dash count of the normalized fqdn, forced to 0
for names containing the punycode marker. -/
def feNumberOfDashes (_cfg : DataConfig) (s : Sample) : FeatDict :=
  dictExtend [] [("num_dashes",
    if containsSubstr s.fqdn "xn--" then (0 : ℝ) else (s.fqdn.toList.count '-' : ℝ))]

/-- _fe_number_of_periods: period count of the normalized fqdn. -/
def feNumberOfPeriods (_cfg : DataConfig) (s : Sample) : FeatDict :=
  dictExtend [] [("num_periods", (s.fqdn.toList.count '.' : ℝ))]

/-! ### compute_features -/

/-- The extractors in the order compute_features discovers them: dir(self)
lists the attribute names alphabetically, so the _fe_ methods run in
alphabetical order of their names. -/
noncomputable def extractors : List (DataConfig → Sample → FeatDict) :=
  [feBrandPresence, feCheckPhishingSimilarityWords, feComputeDomainEntropy,
   feExtractTld, feKeywordMatch, feKeywordMatchFqdnWords,
   feNumberOfDashes, feNumberOfPeriods]

/-- The merged analysis dictionary for one sample: each extractor's dict
merged into the accumulator in discovery order. -/
noncomputable def computeDict (cfg : DataConfig) (s : Sample) : FeatDict :=
  extractors.foldl (fun acc fe => dictExtend acc (fe cfg s)) []

/-- Ordering of dict items by feature name (Python's sorted on the items
of a dict with unique keys compares the names). -/
def keyLE (a b : String × ℝ) : Prop := a.1 ≤ b.1

instance : DecidableRel keyLE := fun a b => inferInstanceAs (Decidable (a.1 ≤ b.1))

instance : IsTotal (String × ℝ) keyLE := ⟨fun a b => le_total a.1 b.1⟩

instance : IsTrans (String × ℝ) keyLE := ⟨fun _ _ _ h h' => le_trans h h'⟩

/-- One row of compute_features: the merged analysis dictionary sorted by
feature name (line 159). -/
noncomputable def computeRow (cfg : DataConfig) (parse : String → DomainParts) (fqdn : String) :
    List (String × ℝ) :=
  List.insertionSort keyLE (computeDict cfg (mkSample parse fqdn))

/-- The only exception compute_features itself can raise: indexing the
first element of the empty feature list. -/
inductive PyError where
  | indexError
deriving DecidableEq

/-- Return shape of compute_features: the value rows, and the feature-name
sequence when it was requested. -/
structure FeatureResult where
  values : List (List ℝ)
  names : Option (List String)

/-- Embedding of PhishFeatures.compute_features: one sorted row per fqdn;
the value rows always; the names, taken from the first row, only when
values_only is false - which indexes features[0] and hence raises when the
input list is empty. -/
noncomputable def compute_features (cfg : DataConfig) (parse : String → DomainParts)
    (fqdns : List String) (valuesOnly : Bool) : Except PyError FeatureResult :=
  let features := fqdns.map (fun f => computeRow cfg parse f)
  let values := features.map (fun row => row.map Prod.snd)
  if valuesOnly then .ok ⟨values, none⟩
  else
    match features with
    | [] => .error .indexError
    | f :: _ => .ok ⟨values, some (f.map Prod.fst)⟩

/-! ### PhishPredictor._certstream_mode: wildcard de-duplication,
batch scoring with its failure policy, and tier evaluation -/

/-- Python's startswith of the wildcard marker. -/
def isWild (s : String) : Bool :=
  match s.toList with
  | '*' :: '.' :: _ => true
  | _ => false

/-- Python's host[2:] - the characters after the wildcard marker. -/
def wildSuffix (s : String) : String := String.mk (s.toList.drop 2)

/-- One pass of the Python loop over the mutating hosts list.  Python's
iterator fetches the element at the current index of the current list and
advances the index by one, whether or not a removal happened; list.remove
deletes the first occurrence of the value.  The fuel argument bounds the
iteration count; the loop runs at most the initial length many times,
because the index grows by one per step and the list never grows. -/
def dedupGo : Nat → List String → Nat → List String
  | 0, l, _ => l
  | fuel + 1, l, i =>
    match l[i]? with
    | none => l
    | some host =>
      let l' := if isWild host && l.contains (wildSuffix host) then
                  l.erase (wildSuffix host)
                else l
      dedupGo fuel l' (i + 1)

/-- Embedding of the wildcard de-duplication in _certstream_mode lines
192-194: iterate over the list while removing, from the same list, the
suffix of any wildcard entry whose suffix is currently present. -/
def wildcardDedup (hosts : List String) : List String :=
  dedupGo hosts.length hosts 0

/-- Modelled from the spec's words for the de-duplication rule: remove
exactly those entries whose text s has a wildcard sibling "*." ++ s in the
batch, keeping every wildcard entry itself.  Used only to compare the
specified behaviour with wildcardDedup. -/
def specWildcardDedup (hosts : List String) : List String :=
  hosts.filter (fun h => isWild h || !(hosts.contains ("*." ++ h)))

/-- A tier's configured attributes (from the logging_tiers config). -/
structure TierCfg where
  threshold : ℚ
  color : String
deriving DecidableEq

/-- The certstream message fields _certstream_mode reads: the message type
and the certificate's domain list. -/
structure CertMessage where
  messageType : String
  allDomains : List String
deriving DecidableEq

/-- Descending-threshold order on named tiers, the iteration order of the
tier loop (Python's sorted with a threshold key and reverse set). -/
def tierDesc (a b : String × TierCfg) : Prop :=
  b.2.threshold ≤ a.2.threshold

instance : DecidableRel tierDesc :=
  fun a b => inferInstanceAs (Decidable (b.2.threshold ≤ a.2.threshold))

instance : IsTotal (String × TierCfg) tierDesc :=
  ⟨fun a b => le_total b.2.threshold a.2.threshold⟩

instance : IsTrans (String × TierCfg) tierDesc :=
  ⟨fun _ _ _ h h' => le_trans h' h⟩

/-- The tiers in the order the loop visits them. -/
def sortTiersDesc (tiers : List (String × TierCfg)) : List (String × TierCfg) :=
  List.insertionSort tierDesc tiers

/-- The tier loop of _certstream_mode lines 207-222: visit the tiers in
descending threshold order and stop at the first whose threshold the score
strictly exceeds; fall through with no result when none qualifies. -/
def evalTier (tiers : List (String × TierCfg)) (score : ℚ) :
    Option (String × TierCfg) :=
  (sortTiersDesc tiers).find? (fun t => decide (t.2.threshold < score))

/-- The result record assembled for a qualifying host (lines 213-218). -/
structure ScoreResult where
  message : CertMessage
  color : String
  level : String
  host : String
  score : ℚ
deriving DecidableEq

/-- Per-host output of the tier loop: the result record for the selected
tier, or nothing when no threshold is exceeded. -/
def hostOutput (tiers : List (String × TierCfg)) (msg : CertMessage)
    (host : String) (score : ℚ) : Option ScoreResult :=
  (evalTier tiers score).map (fun t => ⟨msg, t.2.color, t.1, host, score⟩)

/-- A structured error written through the logging collaborator: the
formatted record of logging.error combines the caught error with the full
certstream message as batch context (line 200). -/
structure LogEntry where
  error : String
  context : CertMessage
deriving DecidableEq

/-- The try/except around self._score (lines 196-201): on success the
classifier's scores are used; on any error a structured error is recorded
and every host of the batch receives the neutral score 0. -/
def batchScores (scorer : List String → Except String (List ℚ))
    (msg : CertMessage) (hosts : List String) : List LogEntry × List ℚ :=
  match scorer hosts with
  | .ok scores => ([], scores)
  | .error e => ([⟨e, msg⟩], List.replicate hosts.length 0)

/-- Embedding of _certstream_mode: heartbeats are ignored; certificate
updates are de-duplicated, scored under the failure policy, and each
host/score pair is evaluated against the tiers.  Returns the log entries
written and the emitted results. -/
def certstream_mode (scorer : List String → Except String (List ℚ))
    (tiers : List (String × TierCfg)) (msg : CertMessage) :
    List LogEntry × List ScoreResult :=
  if msg.messageType = "heartbeat" then ([], [])
  else if msg.messageType = "certificate_update" then
    let hosts := wildcardDedup msg.allDomains
    let ls := batchScores scorer msg hosts
    (ls.1, (hosts.zip ls.2).filterMap (fun p => hostOutput tiers msg p.1 p.2))
  else ([], [])

/-- The certstream callback applied to a whole feed: one batch per
message, each processed independently. -/
def processStream (scorer : List String → Except String (List ℚ))
    (tiers : List (String × TierCfg)) (msgs : List CertMessage) :
    List (List LogEntry × List ScoreResult) :=
  msgs.map (certstream_mode scorer tiers)

/-- The per-fqdn loop of compute_features viewed through a fallible
per-host extraction step, as the error-handling spec describes it: the
loop visits the hosts in order and the first raised error propagates out
of the whole batch computation. -/
def computeFeaturesLoop (extract : String → Except String ℚ) :
    List String → Except String (List ℚ)
  | [] => .ok []
  | f :: rest =>
    match extract f with
    | .error e => .error e
    | .ok r => (computeFeaturesLoop extract rest).map (fun l => r :: l)

/-- PhishPredictor._score built over a fallible per-host extraction step:
features for the whole batch, then the classifier's probabilities.  The
per-host scoring column is folded into the extraction step, which is where
a malformed host would raise. -/
def scoreBatch (extract : String → Except String ℚ) (hosts : List String) :
    Except String (List ℚ) :=
  computeFeaturesLoop extract hosts

/-- Demonstration tier set from the testable properties of the spec. -/
def exampleTiers : List (String × TierCfg) :=
  [("high", ⟨9 / 10, "red"⟩), ("suspicious", ⟨1 / 2, "yellow"⟩),
   ("low", ⟨1 / 10, "white"⟩)]

/-- A per-host extraction step that fails on one specific malformed host
and scores every other host 1. -/
def extractDemo : String → Except String ℚ :=
  fun h => if h = "bad..host" then .error "malformed" else .ok 1

/-- A trivial stand-in for the external public-suffix splitter, used to
instantiate theorems at concrete inputs. -/
def demoParse : String → DomainParts := fun _ => ⟨"", "", ""⟩

/-- A small concrete extractor configuration for instantiating theorems. -/
def demoCfg : DataConfig := ⟨["paypal"], ["login"], ["login"], ["paypal"], ["com"]⟩

/-- A concrete certificate-update message with one well-formed and one
malformed host. -/
def demoBatchMsg : CertMessage := ⟨"certificate_update", ["good.com", "bad..host"]⟩

/-- A scorer that fails on every batch, standing in for a classifier or
feature-extraction error. -/
def failScorer : List String → Except String (List ℚ) :=
  fun _ => .error "connection reset"

/-- A tier set with integer thresholds, for instantiating the tier-loop
theorems at inputs where rational comparison reduces definitionally. -/
def intTiers : List (String × TierCfg) :=
  [("high", ⟨2, "red"⟩), ("low", ⟨0, "white"⟩)]

/-! ## Theorems -/

/-! ### Normalization (claim C6) -/

/-- A string whose first dot-separated label is not a benign host is a
fixed point of removeCommonHosts. -/
theorem removeCommonHosts_fixed {s : String} (h : hasCommonHead s = false) :
    removeCommonHosts s = s := by
  unfold removeCommonHosts
  unfold hasCommonHead at h
  cases e : splitFirstDot s.toList with
  | none => rfl
  | some p =>
    rw [e] at h
    simp only at h
    show (if commonHosts.contains (String.mk p.1) = true then String.mk p.2 else s) = s
    rw [if_neg (by simpa using h)]

/-- C6 (counterexample): normalize is not idempotent; removing one benign
label can expose another, so a second application changes the result
again. -/
theorem c6_normalize_not_idempotent :
    removeCommonHosts (removeCommonHosts "www.mail.google.com") ≠
      removeCommonHosts "www.mail.google.com" := by decide

/-- C6 (amended): removeCommonHosts removes at most one benign left-most
label per application; a second application is the identity exactly when
the first result does not itself begin with a benign label before its
first dot. -/
theorem c6_normalize_conditionally_idempotent (d : String)
    (h : hasCommonHead (removeCommonHosts d) = false) :
    removeCommonHosts (removeCommonHosts d) = removeCommonHosts d :=
  removeCommonHosts_fixed h

/-- C6 witness: the amended statement observed at a concrete input. -/
theorem c6_normalize_witness :
    hasCommonHead (removeCommonHosts "www.google.com") = false ∧
      removeCommonHosts (removeCommonHosts "www.google.com") =
        removeCommonHosts "www.google.com" :=
  ⟨by decide, c6_normalize_conditionally_idempotent "www.google.com" (by decide)⟩

/-! ### Tokenization (claim C9) -/

/-- splitAux never returns an empty token list. -/
theorem splitAux_ne_nil (p : Char → Bool) :
    ∀ (rest : List Char) (sep : Bool) (acc : List Char),
      splitAux p sep acc rest ≠ [] := by
  intro rest
  induction rest with
  | nil => intro sep acc; simp [splitAux]
  | cons c t ih =>
    intro sep acc
    unfold splitAux
    by_cases hc : p c = true
    · cases sep <;> simp [hc, ih]
    · cases sep <;> simp [hc, ih]

/-- Every token splitAux produces consists of characters satisfying p,
provided the accumulated partial token does. -/
theorem splitAux_tokens_sat (p : Char → Bool) :
    ∀ (rest : List Char) (sep : Bool) (acc : List Char),
      (∀ c ∈ acc, p c = true) →
      ∀ t ∈ splitAux p sep acc rest, ∀ c ∈ t, p c = true := by
  intro rest
  induction rest with
  | nil =>
    intro sep acc hacc t ht c hc
    simp only [splitAux, List.mem_singleton] at ht
    subst ht
    exact hacc c (List.mem_reverse.mp hc)
  | cons x xs ih =>
    intro sep acc hacc t ht c hc
    unfold splitAux at ht
    by_cases hx : p x = true
    · rw [if_pos hx] at ht
      cases sep with
      | true =>
        simp only [if_true] at ht
        exact ih false [x] (by simpa using hx) t ht c hc
      | false =>
        simp only [Bool.false_eq_true, if_false] at ht
        refine ih false (x :: acc) ?_ t ht c hc
        intro d hd
        rcases List.mem_cons.mp hd with rfl | hd
        · exact hx
        · exact hacc d hd
    · rw [if_neg hx] at ht
      cases sep with
      | true =>
        simp only [if_true] at ht
        exact ih true [] (by simp) t ht c hc
      | false =>
        simp only [Bool.false_eq_true, if_false, List.mem_cons] at ht
        rcases ht with rfl | ht
        · exact hacc c (List.mem_reverse.mp hc)
        · exact ih true [] (by simp) t ht c hc

/-- C9 (counterexample): tokenization does not discard empty tokens (a
leading separator run yields an empty boundary token), and it does not
split on the underscore even though the underscore is not alphanumeric;
on both inputs the result differs from the spec-modelled tokenizer. -/
theorem c9_tokenize_counterexample :
    "" ∈ reSplitTokens "*.example.com" ∧
      reSplitTokens "*.example.com" ≠ specTokenize "*.example.com" ∧
      reSplitTokens "a_b" = ["a_b"] ∧
      reSplitTokens "a_b" ≠ specTokenize "a_b" := by decide

/-- C9 (amended): tokenization splits the fqdn on maximal runs of
non-word characters (word characters being the alphanumerics and the
underscore); the result is never empty, every token consists solely of
word characters, and empty boundary tokens are retained, as on
"*.example.com". -/
theorem c9_tokenize_word_runs (s : String) :
    reSplitTokens s ≠ [] ∧
      (∀ t ∈ reSplitTokens s, ∀ c ∈ t.toList, isWordChar c = true) ∧
      reSplitTokens "*.example.com" = ["", "example", "com"] := by
  refine ⟨?_, ?_, by decide⟩
  · unfold reSplitTokens
    intro h
    exact splitAux_ne_nil isWordChar s.toList false [] (List.map_eq_nil_iff.mp h)
  · intro t ht c hc
    unfold reSplitTokens at ht
    rcases List.mem_map.mp ht with ⟨l, hl, rfl⟩
    exact splitAux_tokens_sat isWordChar s.toList false [] (by simp) l hl c hc

/-- C9 witness: the amended statement observed at a concrete input. -/
theorem c9_tokenize_witness :
    reSplitTokens "phish-login.example.com" ≠ [] ∧
      (∀ t ∈ reSplitTokens "phish-login.example.com", ∀ c ∈ t.toList,
        isWordChar c = true) ∧
      reSplitTokens "*.example.com" = ["", "example", "com"] :=
  c9_tokenize_word_runs "phish-login.example.com"

/-! ### compute_features on the empty batch (claim C10) -/

/-- C10: on an empty fqdn list, requesting the feature names indexes the
first row of an empty list and raises IndexError, while the values-only
call returns an empty values list. -/
theorem c10_empty_batch (cfg : DataConfig) (parse : String → DomainParts) :
    compute_features cfg parse [] false = .error .indexError ∧
      compute_features cfg parse [] true = .ok ⟨[], none⟩ :=
  ⟨rfl, rfl⟩

/-! ### Dash count (claim C8) -/

/-- C8: the num_dashes feature is 0 whenever the normalized fqdn contains
the punycode marker, and the literal dash count of the normalized fqdn
otherwise. -/
theorem c8_num_dashes (cfg : DataConfig) (parse : String → DomainParts)
    (fqdn : String) :
    (containsSubstr (removeCommonHosts fqdn) "xn--" = true →
      feNumberOfDashes cfg (mkSample parse fqdn) = [("num_dashes", 0)]) ∧
    (containsSubstr (removeCommonHosts fqdn) "xn--" = false →
      feNumberOfDashes cfg (mkSample parse fqdn) =
        [("num_dashes", ((removeCommonHosts fqdn).toList.count '-' : ℝ))]) := by
  constructor
  · intro h
    simp [feNumberOfDashes, mkSample, dictExtend, dictInsert, h]
  · intro h
    simp [feNumberOfDashes, mkSample, dictExtend, dictInsert, h]

/-- C8 witness: a punycode name reports 0 dashes, a plain name its literal
dash count. -/
theorem c8_num_dashes_witness :
    feNumberOfDashes demoCfg (mkSample demoParse "xn--pple-43d.com") =
      [("num_dashes", 0)] ∧
    feNumberOfDashes demoCfg (mkSample demoParse "secure--login.com") =
      [("num_dashes",
        ((removeCommonHosts "secure--login.com").toList.count '-' : ℝ))] :=
  ⟨(c8_num_dashes demoCfg demoParse "xn--pple-43d.com").1 (by decide),
   (c8_num_dashes demoCfg demoParse "secure--login.com").2 (by decide)⟩

/-! ### Wildcard de-duplication (claim C3) -/

/-- The mutating loop only ever removes entries: its result is an
order-preserving sublist of its input. -/
theorem dedupGo_sublist : ∀ (fuel : Nat) (l : List String) (i : Nat),
    (dedupGo fuel l i).Sublist l := by
  intro fuel
  induction fuel with
  | zero => intro l i; exact List.Sublist.refl l
  | succ n ih =>
    intro l i
    unfold dedupGo
    cases h : l[i]? with
    | none => exact List.Sublist.refl l
    | some host =>
      show (dedupGo n (if isWild host && l.contains (wildSuffix host) then
        l.erase (wildSuffix host) else l) (i + 1)).Sublist l
      by_cases hc : (isWild host && l.contains (wildSuffix host)) = true
      · rw [if_pos hc]
        exact (ih _ _).trans (List.erase_sublist _ _)
      · rw [if_neg hc]
        exact ih _ _

/-- Soundness of the removals: any entry the loop drops is the suffix of
some wildcard entry of the input batch. -/
theorem dedupGo_removed : ∀ (fuel : Nat) (l : List String) (i : Nat)
    (x : String), x ∈ l → x ∉ dedupGo fuel l i →
    ∃ w ∈ l, isWild w = true ∧ wildSuffix w = x := by
  intro fuel
  induction fuel with
  | zero => intro l i x hx hnx; exact absurd hx hnx
  | succ n ih =>
    intro l i x hx hnx
    unfold dedupGo at hnx
    cases h : l[i]? with
    | none => rw [h] at hnx; exact absurd hx hnx
    | some host =>
      rw [h] at hnx
      replace hnx : x ∉ dedupGo n (if isWild host && l.contains (wildSuffix host)
        then l.erase (wildSuffix host) else l) (i + 1) := hnx
      by_cases hc : (isWild host && l.contains (wildSuffix host)) = true
      · rw [if_pos hc] at hnx
        by_cases hx' : x ∈ l.erase (wildSuffix host)
        · obtain ⟨w, hw, hwild, hsuf⟩ := ih _ _ x hx' hnx
          exact ⟨w, (List.erase_sublist _ _).subset hw, hwild, hsuf⟩
        · have hxeq : x = wildSuffix host := by
            by_contra hne
            exact hx' ((List.mem_erase_of_ne hne).mpr hx)
          have hhost : host ∈ l := by
            have hlt := List.getElem?_eq_some.mp h
            exact hlt.2 ▸ List.getElem_mem _
          obtain ⟨hw1, _⟩ : isWild host = true ∧
              l.contains (wildSuffix host) = true := by simpa using hc
          exact ⟨host, hhost, hw1, hxeq.symm⟩
      · rw [if_neg hc] at hnx
        exact ih _ _ x hx hnx

/-- C3 (counterexample): the de-duplication mutates the list while
iterating over it, so a removal at an earlier index shifts the iteration
past a wildcard entry and its literal duplicate survives; the spec-modelled
rule would have removed it. -/
theorem c3_wildcard_dedup_counterexample :
    wildcardDedup ["a.com", "*.a.com", "*.b.com", "b.com"] =
      ["*.a.com", "*.b.com", "b.com"] ∧
    specWildcardDedup ["a.com", "*.a.com", "*.b.com", "b.com"] =
      ["*.a.com", "*.b.com"] ∧
    wildcardDedup ["a.com", "*.a.com", "*.b.com", "b.com"] ≠
      specWildcardDedup ["a.com", "*.a.com", "*.b.com", "b.com"] := by decide

/-- C3 (amended): the de-duplication only removes entries, keeping their
order; every removed entry is the suffix of some wildcard entry of the
batch (but not every such duplicate is removed); the spec's concrete
example behaves as stated; and the de-duplicated list is the only input
through which the scoring pipeline observes the batch. -/
theorem c3_wildcard_dedup_sound (hosts : List String) :
    (wildcardDedup hosts).Sublist hosts ∧
    (∀ x ∈ hosts, x ∉ wildcardDedup hosts →
      ∃ w ∈ hosts, isWild w = true ∧ wildSuffix w = x) ∧
    wildcardDedup ["*.example.com", "example.com", "sub.example.com"] =
      ["*.example.com", "sub.example.com"] ∧
    ∀ (scorer scorer' : List String → Except String (List ℚ))
      (tiers : List (String × TierCfg)) (msg : CertMessage),
      scorer (wildcardDedup msg.allDomains) =
        scorer' (wildcardDedup msg.allDomains) →
      certstream_mode scorer tiers msg = certstream_mode scorer' tiers msg := by
  refine ⟨dedupGo_sublist _ _ _,
          fun x hx hnx => dedupGo_removed _ _ _ x hx hnx,
          by decide, ?_⟩
  intro scorer scorer' tiers msg h
  simp only [certstream_mode, batchScores, h]

/-- C3 witness: the amended statement observed at the spec's example
batch: the dropped entry "example.com" is the suffix of a wildcard entry. -/
theorem c3_wildcard_dedup_witness :
    ∃ w ∈ ["*.example.com", "example.com", "sub.example.com"],
      isWild w = true ∧ wildSuffix w = "example.com" :=
  (c3_wildcard_dedup_sound
    ["*.example.com", "example.com", "sub.example.com"]).2.1
    "example.com" (by decide) (by decide)

/-! ### Batch failure policy (claim C4) -/

/-- C4: when scoring a certificate-update batch fails, the dispatcher
records one structured error carrying the caught error and the full
message as context, substitutes the neutral score 0 for every host of the
de-duplicated batch, and the processing of every other message of the
stream is exactly the processing of that message alone. -/
theorem c4_batch_failure_policy (scorer : List String → Except String (List ℚ))
    (tiers : List (String × TierCfg)) (msg : CertMessage) (e : String)
    (hty : msg.messageType = "certificate_update")
    (herr : scorer (wildcardDedup msg.allDomains) = .error e) :
    batchScores scorer msg (wildcardDedup msg.allDomains) =
      ([⟨e, msg⟩], List.replicate (wildcardDedup msg.allDomains).length 0) ∧
    certstream_mode scorer tiers msg =
      ([⟨e, msg⟩],
        ((wildcardDedup msg.allDomains).zip
          (List.replicate (wildcardDedup msg.allDomains).length (0 : ℚ))).filterMap
            (fun p => hostOutput tiers msg p.1 p.2)) ∧
    ∀ (msgs : List CertMessage) (i : Nat),
      (processStream scorer tiers msgs)[i]? =
        msgs[i]?.map (certstream_mode scorer tiers) := by
  refine ⟨?_, ?_, ?_⟩
  · unfold batchScores
    rw [herr]
  · have hne : ("certificate_update" : String) ≠ "heartbeat" := by decide
    simp only [certstream_mode, hty, if_neg hne, eq_self_iff_true, if_true,
      batchScores, herr]
  · intro msgs i
    simp [processStream]

/-- C4 witness: the failure policy observed with a concrete failing
scorer on a concrete certificate-update message. -/
theorem c4_batch_failure_witness :
    batchScores failScorer demoBatchMsg (wildcardDedup demoBatchMsg.allDomains) =
      ([⟨"connection reset", demoBatchMsg⟩],
        List.replicate (wildcardDedup demoBatchMsg.allDomains).length 0) :=
  (c4_batch_failure_policy failScorer intTiers demoBatchMsg
    "connection reset" rfl rfl).1

/-! ### No per-host isolation of extraction failures (claim C5) -/

/-- The compute_features loop propagates the first per-host error out of
the whole batch computation. -/
theorem computeFeaturesLoop_error_of_mem (extract : String → Except String ℚ) :
    ∀ (l : List String) (host e : String), host ∈ l →
      extract host = .error e →
      ∃ e', computeFeaturesLoop extract l = .error e' := by
  intro l
  induction l with
  | nil => intro host e h _; exact absurd h (List.not_mem_nil _)
  | cons a t ih =>
    intro host e hmem hfail
    cases hx : extract a with
    | error e2 => exact ⟨e2, by simp [computeFeaturesLoop, hx]⟩
    | ok r =>
      rcases List.mem_cons.mp hmem with rfl | hmem'
      · rw [hx] at hfail; cases hfail
      · obtain ⟨e', he'⟩ := ih host e hmem' hfail
        exact ⟨e', by simp [computeFeaturesLoop, hx, he', Except.map]⟩

/-- C5 (counterexample): one malformed host in a batch makes the whole
batch neutral.  Alone, "good.com" scores 1; in a batch with the malformed
"bad..host" the dispatcher's catch yields [0, 0], not the [1, 0] that
per-host isolation would give. -/
theorem c5_sibling_not_isolated :
    scoreBatch extractDemo ["good.com"] = .ok [1] ∧
    (batchScores (scoreBatch extractDemo) demoBatchMsg
      (wildcardDedup demoBatchMsg.allDomains)).2 = [0, 0] ∧
    ([0, 0] : List ℚ) ≠ [1, 0] :=
  ⟨rfl, rfl, by decide⟩

/-- C5 (amended): an extraction failure on any single host of a batch
aborts feature computation for the whole batch, so the dispatcher scores
the failing host AND all its siblings neutral (0) and records one
structured error with the batch context. -/
theorem c5_extraction_failure_batchwide (extract : String → Except String ℚ)
    (msg : CertMessage) (host e : String)
    (hmem : host ∈ wildcardDedup msg.allDomains)
    (hfail : extract host = .error e) :
    ∃ e', scoreBatch extract (wildcardDedup msg.allDomains) = .error e' ∧
      batchScores (scoreBatch extract) msg (wildcardDedup msg.allDomains) =
        ([⟨e', msg⟩], List.replicate (wildcardDedup msg.allDomains).length 0) := by
  obtain ⟨e', he'⟩ :=
    computeFeaturesLoop_error_of_mem extract _ host e hmem hfail
  refine ⟨e', he', ?_⟩
  unfold batchScores scoreBatch
  rw [he']

/-- C5 witness: the amended statement observed on the concrete demo
batch. -/
theorem c5_extraction_failure_witness :
    ∃ e', scoreBatch extractDemo (wildcardDedup demoBatchMsg.allDomains) =
        .error e' ∧
      batchScores (scoreBatch extractDemo) demoBatchMsg
          (wildcardDedup demoBatchMsg.allDomains) =
        ([⟨e', demoBatchMsg⟩],
          List.replicate (wildcardDedup demoBatchMsg.allDomains).length 0) :=
  c5_extraction_failure_batchwide extractDemo demoBatchMsg "bad..host"
    "malformed" (by decide) rfl

/-! ### Tier evaluation (claim C2) -/

/-- In a descending-sorted tier list, the first tier whose threshold the
score strictly exceeds has the greatest threshold among all qualifying
tiers. -/
theorem find_desc_max (score : ℚ) :
    ∀ (l : List (String × TierCfg)), List.Sorted tierDesc l →
      ∀ nt, l.find? (fun t => decide (t.2.threshold < score)) = some nt →
        ∀ p ∈ l, p.2.threshold < score → p.2.threshold ≤ nt.2.threshold := by
  intro l
  induction l with
  | nil => intro _ nt h; cases h
  | cons a t ih =>
    intro hs nt hfind p hp hlt
    by_cases ha : a.2.threshold < score
    · rw [List.find?_cons_of_pos _ (by simpa using ha)] at hfind
      cases hfind
      rcases List.mem_cons.mp hp with rfl | hp'
      · exact le_refl _
      · exact (List.sorted_cons.mp hs).1 p hp'
    · rw [List.find?_cons_of_neg _ (by simpa using ha)] at hfind
      rcases List.mem_cons.mp hp with rfl | hp'
      · exact absurd hlt ha
      · exact ih (List.sorted_cons.mp hs).2 nt hfind p hp' hlt

/-- C2 (counterexample): with tiers {high: 0.9, suspicious: 0.5,
low: 0.1}, a score of exactly 0.5 does not select no tier: it fails the
suspicious boundary but falls through to "low" (0.1 < 0.5), so the host
does produce output. -/
theorem c2_tier_boundary_counterexample :
    (evalTier exampleTiers (1 / 2)).map (fun t => t.1) = some "low" ∧
    evalTier exampleTiers (1 / 2) ≠ none ∧
    hostOutput exampleTiers demoBatchMsg "host.tk" (1 / 2) ≠ none := by
  have h : evalTier exampleTiers (1 / 2) =
      some ("low", ⟨1 / 10, "white"⟩) := by
    norm_num [evalTier, sortTiersDesc, exampleTiers, List.insertionSort,
      List.orderedInsert, tierDesc]
  exact ⟨by rw [h]; rfl, by rw [h]; simp, by unfold hostOutput; rw [h]; simp⟩

/-- C2 (amended): tiers are evaluated in descending threshold order and
the selected tier is the first whose threshold is strictly less than the
score, so a score exactly equal to a threshold does not qualify for that
tier but can still fall through to a lower one; a host qualifies for at
most one tier; when no tier's threshold is strictly exceeded the host
produces no output.  With tiers {high: 0.9, suspicious: 0.5, low: 0.1},
score 0.95 selects "high" and score exactly 0.5 selects "low" (not
"suspicious", and not nothing). -/
theorem c2_tier_selection (tiers : List (String × TierCfg)) (score : ℚ) :
    List.Sorted tierDesc (sortTiersDesc tiers) ∧
    (∀ nt, evalTier tiers score = some nt →
      nt ∈ tiers ∧ nt.2.threshold < score ∧
      ∀ p ∈ tiers, p.2.threshold < score →
        p.2.threshold ≤ nt.2.threshold) ∧
    (evalTier tiers score = none →
      ∀ p ∈ tiers, ¬ p.2.threshold < score) ∧
    (∀ (msg : CertMessage) (host : String), evalTier tiers score = none →
      hostOutput tiers msg host score = none) ∧
    (∀ (msg : CertMessage) (host : String),
      (hostOutput tiers msg host score).toList.length ≤ 1) ∧
    (evalTier exampleTiers (95 / 100)).map (fun t => t.1) = some "high" ∧
    (evalTier exampleTiers (1 / 2)).map (fun t => t.1) = some "low" := by
  have hperm := List.perm_insertionSort tierDesc tiers
  refine ⟨List.sorted_insertionSort tierDesc tiers, ?_, ?_, ?_, ?_, ?_, ?_⟩
  · intro nt hfind
    refine ⟨hperm.mem_iff.mp (List.mem_of_find?_eq_some hfind), ?_, ?_⟩
    · simpa using List.find?_some hfind
    · intro p hp hlt
      exact find_desc_max score (sortTiersDesc tiers)
        (List.sorted_insertionSort tierDesc tiers) nt hfind p
        (hperm.mem_iff.mpr hp) hlt
  · intro hnone p hp hlt
    have := List.find?_eq_none.mp hnone p (hperm.mem_iff.mpr hp)
    simp at this
    exact absurd hlt (by simpa using this)
  · intro msg host hnone
    simp [hostOutput, hnone]
  · intro msg host
    unfold hostOutput
    cases evalTier tiers score <;> simp
  · norm_num [evalTier, sortTiersDesc, exampleTiers, List.insertionSort,
      List.orderedInsert, tierDesc]
  · norm_num [evalTier, sortTiersDesc, exampleTiers, List.insertionSort,
      List.orderedInsert, tierDesc]

/-- C2 witness: the selection property observed on a concrete tier set
with integer thresholds. -/
theorem c2_tier_selection_witness :
    ("high", (⟨2, "red"⟩ : TierCfg)) ∈ intTiers ∧
      (2 : ℚ) < 3 ∧
      ∀ p ∈ intTiers, p.2.threshold < 3 → p.2.threshold ≤ 2 :=
  (c2_tier_selection intTiers 3).2.1 ("high", ⟨2, "red"⟩) (by decide)

/-! ### Domain entropy (claim C7) -/

/-- A duplicate-free list whose members all equal c, with c a member, is
the singleton [c]. -/
theorem nodup_all_eq_singleton {L : List Char} {c : Char} (hnd : L.Nodup)
    (hall : ∀ x ∈ L, x = c) (hmem : c ∈ L) : L = [c] := by
  cases L with
  | nil => cases hmem
  | cons a t =>
    have ha : a = c := hall a (List.mem_cons_self a t)
    subst ha
    cases t with
    | nil => rfl
    | cons b t2 =>
      have hb : b = a := hall b (by simp)
      rw [List.nodup_cons] at hnd
      exact absurd (by simp [← hb]) hnd.1

/-- The code's entropy agrees with the Shannon entropy of the character
frequency distribution. -/
theorem domainEntropy_eq_shannon (d : String) :
    domainEntropy d = shannonEntropy d := by
  unfold domainEntropy shannonEntropy
  have h2 : d.toList.dedup.toFinset = d.toList.toFinset := by
    ext a; simp [List.mem_toFinset, List.mem_dedup]
  rw [← h2, List.sum_toFinset _ (List.nodup_dedup _)]

/-- Entropy of a non-empty constant label is 0. -/
theorem domainEntropy_const (d : String) (c : Char) (hne : d.toList ≠ [])
    (h : ∀ x ∈ d.toList, x = c) : domainEntropy d = 0 := by
  unfold domainEntropy
  have hd : d.toList.dedup = [c] :=
    nodup_all_eq_singleton (List.nodup_dedup _)
      (fun x hx => h x (List.mem_dedup.mp hx))
      (List.mem_dedup.mpr (by
        rcases List.exists_mem_of_ne_nil _ hne with ⟨y, hy⟩
        exact (h y hy) ▸ hy))
  rw [hd]
  have hcount : d.toList.count c = d.toList.length :=
    List.count_eq_length.mpr (fun b hb => (h b hb).symm)
  have hlen : (d.toList.length : ℝ) ≠ 0 :=
    Nat.cast_ne_zero.mpr (fun hh => hne (List.length_eq_zero.mp hh))
  simp only [List.map_cons, List.map_nil, List.sum_cons, List.sum_nil,
    add_zero]
  rw [hcount]
  unfold entropyTerm
  rw [div_self hlen, Real.logb_one, mul_zero, neg_zero]

/-- Entropy of a label with n distinct, equally frequent characters is
log2 of n. -/
theorem domainEntropy_uniform (d : String) (n m : ℕ) (hn : 0 < n)
    (hm : 0 < m) (hlen : d.toList.dedup.length = n)
    (hcount : ∀ c ∈ d.toList.dedup, d.toList.count c = m) :
    domainEntropy d = Real.logb 2 n := by
  have hn' : (n : ℝ) ≠ 0 := Nat.cast_ne_zero.mpr hn.ne'
  have hm' : (m : ℝ) ≠ 0 := Nat.cast_ne_zero.mpr hm.ne'
  have hLtot : d.toList.length = n * m := by
    have h1 : (d.toList.dedup.map fun c => d.toList.count c).sum =
        d.toList.length := by
      have h2 : d.toList.dedup.toFinset = d.toList.toFinset := by
        ext a; simp [List.mem_toFinset, List.mem_dedup]
      rw [← List.sum_toFinset _ (List.nodup_dedup _), h2,
        List.sum_toFinset_count_eq_length]
    have h3 : d.toList.dedup.map (fun c => d.toList.count c) =
        List.replicate n m := by
      rw [List.eq_replicate_iff]
      refine ⟨by simpa using hlen, ?_⟩
      intro b hb
      rcases List.mem_map.mp hb with ⟨c, hc, rfl⟩
      exact hcount c hc
    rw [h3, List.sum_replicate, smul_eq_mul] at h1
    exact h1.symm
  unfold domainEntropy
  have hmap : d.toList.dedup.map
      (fun c => entropyTerm (d.toList.count c) d.toList.length) =
      List.replicate n (entropyTerm m (n * m)) := by
    rw [List.eq_replicate_iff]
    refine ⟨by simpa using hlen, ?_⟩
    intro b hb
    rcases List.mem_map.mp hb with ⟨c, hc, rfl⟩
    rw [hcount c hc, hLtot]
  rw [hmap, List.sum_replicate, nsmul_eq_mul]
  unfold entropyTerm
  have hfrac : ((m : ℕ) : ℝ) / ((n * m : ℕ) : ℝ) = ((n : ℝ))⁻¹ := by
    push_cast
    rw [div_eq_iff (mul_ne_zero hn' hm'), ← mul_assoc,
      inv_mul_cancel₀ hn', one_mul]
  rw [hfrac, Real.logb_inv]
  rw [mul_neg, mul_neg, neg_neg, ← mul_assoc, mul_inv_cancel₀ hn', one_mul]

/-- C7: the entropy feature is the base-2 Shannon entropy of the
character-frequency distribution of the domain label; a non-empty label
of one repeated character yields 0, and a label of n distinct, equally
frequent characters yields log2 of n. -/
theorem c7_entropy_feature :
    (∀ d : String, domainEntropy d = shannonEntropy d) ∧
    (∀ (d : String) (c : Char), d.toList ≠ [] → (∀ x ∈ d.toList, x = c) →
      domainEntropy d = 0) ∧
    (∀ (d : String) (n m : ℕ), 0 < n → 0 < m →
      d.toList.dedup.length = n →
      (∀ c ∈ d.toList.dedup, d.toList.count c = m) →
      domainEntropy d = Real.logb 2 n) :=
  ⟨domainEntropy_eq_shannon, domainEntropy_const, domainEntropy_uniform⟩

/-- C7 witness: entropy 0 for the constant label "aaa"; entropy log2(2)
for the two-character uniform label "ab". -/
theorem c7_entropy_witness :
    domainEntropy "aaa" = 0 ∧
      domainEntropy "ab" = Real.logb 2 ((2 : ℕ) : ℝ) :=
  ⟨c7_entropy_feature.2.1 "aaa" 'a' (by decide) (by decide),
   c7_entropy_feature.2.2 "ab" 2 1 (by decide) (by decide) (by decide)
     (by decide)⟩

/-! ### Feature-vector determinism and column order (claim C1) -/

/-- Assigning one item moves the dict's key sequence by the insertKeys
step: an existing key keeps its position, a fresh key is appended. -/
theorem map_fst_dictInsert (d : FeatDict) (k : String) (v : ℝ) :
    (dictInsert d k v).map Prod.fst =
      if k ∈ d.map Prod.fst then d.map Prod.fst else d.map Prod.fst ++ [k] := by
  unfold dictInsert
  by_cases h : d.any (fun p => decide (p.1 = k)) = true
  · rw [if_pos h]
    have hmem : k ∈ d.map Prod.fst := by
      rcases List.any_eq_true.mp h with ⟨p, hp, hpk⟩
      exact List.mem_map.mpr ⟨p, hp, of_decide_eq_true hpk⟩
    rw [if_pos hmem, List.map_map]
    apply List.map_congr_left
    intro p hp
    by_cases hpk : p.1 = k
    · simp [hpk]
    · simp [hpk]
  · rw [if_neg h]
    have hmem : k ∉ d.map Prod.fst := by
      intro hk
      rcases List.mem_map.mp hk with ⟨p, hp, hpk⟩
      exact h (List.any_eq_true.mpr ⟨p, hp, decide_eq_true hpk⟩)
    rw [if_neg hmem]
    simp

/-- The key sequence of a dict after a sequence of assignments depends
only on the starting key sequence and the assigned keys. -/
theorem map_fst_dictExtend : ∀ (items : List (String × ℝ)) (d : FeatDict),
    (dictExtend d items).map Prod.fst =
      insertKeys (d.map Prod.fst) (items.map Prod.fst) := by
  intro items
  induction items with
  | nil => intro d; rfl
  | cons it rest ih =>
    intro d
    show (dictExtend (dictInsert d it.1 it.2) rest).map Prod.fst = _
    rw [ih (dictInsert d it.1 it.2), map_fst_dictInsert]
    rfl

/-- Key-sequence congruence for dict merging. -/
theorem keys_dictExtend_congr {d d' : FeatDict}
    {items items' : List (String × ℝ)}
    (hd : d.map Prod.fst = d'.map Prod.fst)
    (hi : items.map Prod.fst = items'.map Prod.fst) :
    (dictExtend d items).map Prod.fst =
      (dictExtend d' items').map Prod.fst := by
  rw [map_fst_dictExtend, map_fst_dictExtend, hd, hi]

/-- Brand-presence feature names depend only on the configuration. -/
theorem feBrandPresence_keys (cfg : DataConfig) (s s' : Sample) :
    (feBrandPresence cfg s).map Prod.fst =
      (feBrandPresence cfg s').map Prod.fst := by
  unfold feBrandPresence
  exact keys_dictExtend_congr rfl
    (by rw [List.map_flatMap, List.map_flatMap]; rfl)

/-- Similarity feature names depend only on the configuration. -/
theorem feCheckPhishingSimilarityWords_keys (cfg : DataConfig)
    (s s' : Sample) :
    (feCheckPhishingSimilarityWords cfg s).map Prod.fst =
      (feCheckPhishingSimilarityWords cfg s').map Prod.fst := by
  unfold feCheckPhishingSimilarityWords
  exact keys_dictExtend_congr rfl (by rw [List.map_map, List.map_map]; rfl)

/-- The entropy feature name is fixed. -/
theorem feComputeDomainEntropy_keys (cfg : DataConfig) (s s' : Sample) :
    (feComputeDomainEntropy cfg s).map Prod.fst =
      (feComputeDomainEntropy cfg s').map Prod.fst := rfl

/-- TLD feature names depend only on the configuration. -/
theorem feExtractTld_keys (cfg : DataConfig) (s s' : Sample) :
    (feExtractTld cfg s).map Prod.fst =
      (feExtractTld cfg s').map Prod.fst := by
  unfold feExtractTld
  exact keys_dictExtend_congr rfl (by rw [List.map_map, List.map_map]; rfl)

/-- Keyword feature names depend only on the configuration. -/
theorem feKeywordMatch_keys (cfg : DataConfig) (s s' : Sample) :
    (feKeywordMatch cfg s).map Prod.fst =
      (feKeywordMatch cfg s').map Prod.fst := by
  unfold feKeywordMatch
  exact keys_dictExtend_congr rfl (by rw [List.map_map, List.map_map]; rfl)

/-- Exact-token keyword feature names depend only on the configuration. -/
theorem feKeywordMatchFqdnWords_keys (cfg : DataConfig) (s s' : Sample) :
    (feKeywordMatchFqdnWords cfg s).map Prod.fst =
      (feKeywordMatchFqdnWords cfg s').map Prod.fst := by
  unfold feKeywordMatchFqdnWords
  exact keys_dictExtend_congr rfl (by rw [List.map_map, List.map_map]; rfl)

/-- The dash-count feature name is fixed. -/
theorem feNumberOfDashes_keys (cfg : DataConfig) (s s' : Sample) :
    (feNumberOfDashes cfg s).map Prod.fst =
      (feNumberOfDashes cfg s').map Prod.fst := rfl

/-- The period-count feature name is fixed. -/
theorem feNumberOfPeriods_keys (cfg : DataConfig) (s s' : Sample) :
    (feNumberOfPeriods cfg s).map Prod.fst =
      (feNumberOfPeriods cfg s').map Prod.fst := rfl

/-- The merged analysis dictionary's key sequence depends only on the
configuration, not on the sample. -/
theorem computeDict_keys (cfg : DataConfig) (s s' : Sample) :
    (computeDict cfg s).map Prod.fst = (computeDict cfg s').map Prod.fst :=
  keys_dictExtend_congr (keys_dictExtend_congr (keys_dictExtend_congr
    (keys_dictExtend_congr (keys_dictExtend_congr (keys_dictExtend_congr
      (keys_dictExtend_congr (keys_dictExtend_congr rfl
        (feBrandPresence_keys cfg s s'))
        (feCheckPhishingSimilarityWords_keys cfg s s'))
      (feComputeDomainEntropy_keys cfg s s'))
      (feExtractTld_keys cfg s s'))
    (feKeywordMatch_keys cfg s s'))
    (feKeywordMatchFqdnWords_keys cfg s s'))
    (feNumberOfDashes_keys cfg s s'))
    (feNumberOfPeriods_keys cfg s s')

/-- Sorting items by feature name commutes with projecting the names. -/
theorem map_fst_orderedInsert (a : String × ℝ) :
    ∀ l : List (String × ℝ),
      (List.orderedInsert keyLE a l).map Prod.fst =
        List.orderedInsert (· ≤ ·) a.1 (l.map Prod.fst) := by
  intro l
  induction l with
  | nil => rfl
  | cons b t ih =>
    simp only [List.orderedInsert]
    by_cases h : keyLE a b
    · have h' : a.1 ≤ b.1 := h
      rw [if_pos h, if_pos h']
      simp
    · have h' : ¬a.1 ≤ b.1 := h
      rw [if_neg h, if_neg h']
      simp [ih]

/-- Insertion sort by feature name commutes with projecting the names. -/
theorem map_fst_insertionSort :
    ∀ l : List (String × ℝ),
      (List.insertionSort keyLE l).map Prod.fst =
        List.insertionSort (· ≤ ·) (l.map Prod.fst) := by
  intro l
  induction l with
  | nil => rfl
  | cons a t ih =>
    simp only [List.insertionSort, List.map_cons]
    rw [map_fst_orderedInsert, ih]

/-- C1: computing the feature row is a pure function of the configuration,
the parser and the fqdn, so recomputation yields identical values in
identical order; each row is sorted by feature name (keyLE compares the
names lexicographically); the name sequence of a row does not depend on
the fqdn, so the column order is the same across all calls for a fixed
configuration; and the values matrix of compute_features consists of
exactly these rows in input order. -/
theorem c1_feature_vector_deterministic (cfg : DataConfig)
    (parse : String → DomainParts) (f f' : String) (fqdns : List String) :
    computeRow cfg parse f = computeRow cfg parse f ∧
    List.Sorted keyLE (computeRow cfg parse f) ∧
    (computeRow cfg parse f).map Prod.fst =
      (computeRow cfg parse f').map Prod.fst ∧
    compute_features cfg parse fqdns true =
      .ok ⟨(fqdns.map (fun x => computeRow cfg parse x)).map
        (fun row => row.map Prod.snd), none⟩ := by
  refine ⟨rfl, List.sorted_insertionSort keyLE _, ?_, rfl⟩
  unfold computeRow
  rw [map_fst_insertionSort, map_fst_insertionSort,
    computeDict_keys cfg (mkSample parse f) (mkSample parse f')]

end StreamingPhish
